import Mathlib

/-!
Verification development for `src/build.py` (class `MediaOwnershipExtractor`).

The Python source is shallowly embedded as follows:

* Python `float` percentages are modelled as `ℚ`.  Every percentage handled by
  the claims under study is an exact decimal (60, 50, 30.0, the threshold 1.0),
  so rational arithmetic agrees with IEEE double arithmetic on all values that
  appear in the theorems below.
* Python `dict`s (`self.owners`, `self.entities`) are modelled as association
  lists in insertion order, which is exactly the iteration order of a Python
  dict; an upsert of an existing key replaces the stored value in place.
* `networkx.DiGraph` is modelled by a node list plus an edge list with at most
  one entry per ordered pair; `add_edge` on an existing pair updates the stored
  attribute dict in place (`G[u][v].update(attrs)`), i.e. attributes supplied by
  the new call override, attributes not supplied are retained.  Edge attribute
  dicts are modelled by `EdgeAttrs` with one `Option` field per attribute key
  ever used by the source (`type`, `percentage`, `description`).
* `nx.all_simple_paths(G, s, t, cutoff)` is a DFS enumerating simple paths with
  at most `cutoff` edges; for `s = t` it yields nothing (networkx returns an
  empty generator when the source is a target).  `nx.has_path` raises
  `NodeNotFound` when either endpoint is not a node of the graph, otherwise it
  decides reachability; reachability is decided here by searching for a simple
  path with at most `|node occurrence list|` edges, which is an upper bound on
  the length of any simple path.
* The `try`/`except` wrapping the whole body of `calculate_indirect_ownership`
  is modelled by `Except`: an error raised while processing one
  `(owner, entity)` pair stops the whole batch, keeping the relationships
  appended for the pairs already processed (exactly what the Python code does,
  since the handler sits outside both loops).
* Python `str.lower()` is applied in `sanitize_id` only after every character
  outside `[A-Za-z0-9]` has been replaced by an underscore, so on its actual
  input alphabet it coincides with ASCII lowercasing, which is what `toLowerA`
  implements (the same arithmetic as `Char.toLower`).
* `f"Owns {p}% of {n}"` uses Python's float `str`; these descriptions are never
  inspected by any claim and are rendered with `toString (p : ℚ)` here.
  `f"{p:.2f}"` (inspected by the claims) is rendered by `fmt2`, rounding to
  hundredths; all values reaching it in this development are exact hundredths,
  so no rounding-mode issue arises.
-/

set_option allowUnsafeReducibility true in
attribute [semireducible] Rat.mul Rat.add Rat.sub Rat.inv

/-! ### Identifier normalisation (`MediaOwnershipExtractor.sanitize_id`) -/

/-- Character class of the regex `[^a-zA-Z0-9]`s complement: ASCII alphanumerics. -/
def isAlnumAscii (c : Char) : Bool :=
  (97 ≤ c.toNat && c.toNat ≤ 122) || (65 ≤ c.toNat && c.toNat ≤ 90) ||
    (48 ≤ c.toNat && c.toNat ≤ 57)

/-- ASCII lowercasing, the behaviour of Python `str.lower()` on the post-substitution
alphabet `[A-Za-z0-9_]` (and the same arithmetic as `Char.toLower`). -/
def toLowerA (c : Char) : Char :=
  if 65 ≤ c.toNat && c.toNat ≤ 90 then Char.ofNat (c.toNat + 32) else c

/-- Python `re.sub(r'[^a-zA-Z0-9]', '_', name)`, one character at a time. -/
def subChar (c : Char) : Char :=
  if isAlnumAscii c then c else '_'

/-- Python `re.sub(r'_+', '_', s)`: collapse each run of consecutive underscores
to a single underscore. -/
def collapseUnderscores : List Char → List Char
  | [] => []
  | [c] => [c]
  | c :: d :: rest =>
    if c = '_' && d = '_' then collapseUnderscores (d :: rest)
    else c :: collapseUnderscores (d :: rest)

/-- Python `s.strip(x)`: remove leading and trailing occurrences of `x`. -/
def stripChar (x : Char) (l : List Char) : List Char :=
  ((l.dropWhile (fun c => c = x)).reverse.dropWhile (fun c => c = x)).reverse

/-- The character-list pipeline of `sanitize_id` for non-empty input:
substitute, lowercase, collapse runs of underscores, strip underscores. -/
def sanitizeList (l : List Char) : List Char :=
  stripChar '_' (collapseUnderscores ((l.map subChar).map toLowerA))

/-- Model of `MediaOwnershipExtractor.sanitize_id` (src/build.py lines 482-496).
`if not name: return "unknown"` fires exactly on the empty string. -/
def sanitize_id (name : String) : String :=
  if name = "" then "unknown" else String.mk (sanitizeList name.data)

/-! ### Data model: relationships, entity records, the `nx.DiGraph` -/

/-- A record of the `self.relationships` list.  The dict key `type` is spelled
`rtype` here (`type` would shadow the Lean keyword in some positions). -/
structure Relationship where
  source_id : String
  target_id : String
  rtype : String
  percentage : ℚ
  description : String
deriving DecidableEq, Repr

/-- The value stored in `self.owners[id]` / `self.entities[id]` (the `id` key
itself is the association-list key).  `etype` models the dict key `type`. -/
structure EntityInfo where
  name : String := ""
  description : String := ""
  image_url : String := ""
  etype : String := ""
  media_type : Option String := none
deriving DecidableEq, Repr

/-- The attribute dict of a `DiGraph` edge: each attribute key ever passed by
the source is an optional field; `none` means the key is absent. -/
structure EdgeAttrs where
  etype : Option String := none
  percentage : Option ℚ := none
  description : Option String := none
deriving DecidableEq, Repr

/-- Python `dict.update`: attributes supplied by the new call override, the rest are
retained (`G.add_edge` on an existing pair does `G[u][v].update(new)`). -/
def mergeAttrs (old new : EdgeAttrs) : EdgeAttrs :=
  { etype := new.etype.orElse fun _ => old.etype
    percentage := new.percentage.orElse fun _ => old.percentage
    description := new.description.orElse fun _ => old.description }

/-- Model of `networkx.DiGraph`: node list (insertion order; node attributes are not
needed by any claim and are omitted) and at most one edge record per ordered
pair, in insertion order. -/
structure NxDiGraph where
  nodes : List String := []
  edges : List ((String × String) × EdgeAttrs) := []
deriving DecidableEq, Repr

/-- Model of `G.add_node u`: a node already present keeps its position (re-adding only
updates attributes, which are not modelled). -/
def addNode (g : NxDiGraph) (n : String) : NxDiGraph :=
  if n ∈ g.nodes then g else { g with nodes := g.nodes ++ [n] }

/-- Update the attribute dict of the (unique) edge record with key `(u, v)`,
or append a fresh record; mirrors the adjacency-dict update of `DiGraph.add_edge`. -/
def updateEdges : List ((String × String) × EdgeAttrs) → String → String → EdgeAttrs →
    List ((String × String) × EdgeAttrs)
  | [], u, v, a => [((u, v), a)]
  | e :: rest, u, v, a =>
    if e.1 = (u, v) then (e.1, mergeAttrs e.2 a) :: rest
    else e :: updateEdges rest u v a

/-- Model of `G.add_edge u v **attrs`: both endpoints become nodes, and the single edge
record for the ordered pair `(u, v)` is created or updated in place. -/
def addEdge (g : NxDiGraph) (u v : String) (a : EdgeAttrs) : NxDiGraph :=
  let g2 := addNode (addNode g u) v
  { g2 with edges := updateEdges g2.edges u v a }

/-- The attribute dict of the edge `u -> v`, if the edge exists. -/
def getEdge (g : NxDiGraph) (u v : String) : Option EdgeAttrs :=
  (g.edges.find? (fun e => e.1 = (u, v))).map (fun e => e.2)

/-- Well-formedness every graph reachable from the empty graph enjoys: at most
one edge record per ordered pair. -/
def GraphWF (g : NxDiGraph) : Prop :=
  (g.edges.map Prod.fst).Nodup

/-! ### Extractor state and the direct-relationship producers -/

/-- The mutable collections of a `MediaOwnershipExtractor` instance. -/
structure ExtractorState where
  owners : List (String × EntityInfo) := []
  entities : List (String × EntityInfo) := []
  relationships : List Relationship := []
  graph : NxDiGraph := {}
deriving DecidableEq, Repr

/-- Python dict assignment `d[k] = v`: replace in place if the key exists,
otherwise append (dicts preserve insertion order). -/
def dictUpsert (l : List (String × EntityInfo)) (k : String) (v : EntityInfo) :
    List (String × EntityInfo) :=
  if l.any (fun p => p.1 = k) then l.map (fun p => if p.1 = k then (k, v) else p)
  else l ++ [(k, v)]

/-- The key list of a modelled dict, in iteration order. -/
def dictKeys (l : List (String × EntityInfo)) : List String :=
  l.map Prod.fst

/-- Description string of a direct ownership relationship,
`f"Owns {p}% of {name}"` (rendered via `ℚ`; never inspected by a claim). -/
def ownsDesc (pct : ℚ) (nm : String) : String :=
  "Owns " ++ toString pct ++ "% of " ++ nm

/-- Model of `MediaOwnershipExtractor.process_media_company` (lines 155-215) from the
point where the HTML fields (name, percentage, image) have been extracted:
register the company, add its node, append the `owns` relationship and edge. -/
def processMediaCompany (s : ExtractorState) (owner_id company_name : String)
    (pct : ℚ) (image_url : String) : ExtractorState :=
  let company_id := sanitize_id company_name
  let einfo : EntityInfo := { name := company_name, etype := "company", image_url := image_url }
  let desc := ownsDesc pct company_name
  let rel : Relationship :=
    { source_id := owner_id, target_id := company_id, rtype := "owns",
      percentage := pct, description := desc }
  { s with
    entities := dictUpsert s.entities company_id einfo
    relationships := s.relationships ++ [rel]
    graph := addEdge (addNode s.graph company_id) owner_id company_id
      { etype := some "owns", percentage := some pct, description := some desc } }

/-- Model of `MediaOwnershipExtractor.process_media_outlet` (lines 245-311), likewise
from the point where the HTML fields have been extracted. -/
def processMediaOutlet (s : ExtractorState) (owner_id outlet_name outlet_type : String)
    (pct : ℚ) (image_url : String) : ExtractorState :=
  let outlet_id := sanitize_id outlet_name
  let einfo : EntityInfo := { name := outlet_name, etype := "media_outlet",
                              media_type := some outlet_type, image_url := image_url }
  let desc := ownsDesc pct outlet_name
  let rel : Relationship :=
    { source_id := owner_id, target_id := outlet_id, rtype := "owns",
      percentage := pct, description := desc }
  { s with
    entities := dictUpsert s.entities outlet_id einfo
    relationships := s.relationships ++ [rel]
    graph := addEdge (addNode s.graph outlet_id) owner_id outlet_id
      { etype := some "owns", percentage := some pct, description := some desc } }

/-- Python `s.strip()`. -/
def trimWs (l : List Char) : List Char :=
  ((l.dropWhile Char.isWhitespace).reverse.dropWhile Char.isWhitespace).reverse

/-- Python `text.split(sep, 1)`: split at the first occurrence of `sep`, if any.
`sep` is assumed non-empty (both separators in the source are). -/
def splitOnceAux (sep : List Char) : List Char → Option (List Char × List Char)
  | [] => none
  | c :: t =>
    if sep.isPrefixOf (c :: t) then some ([], (c :: t).drop sep.length)
    else match splitOnceAux sep t with
      | some (a, b) => some (c :: a, b)
      | none => none

/-- Lines 355-371 of `process_family_member`: extract `(name, description)` from
the free text, trying en-dash then hyphen separators, then the first sentence.
(The `else: return` at line 370 is unreachable: Python `str.split('.')` never
returns an empty list.) -/
def parseFamilyText (text : String) : String × String :=
  match splitOnceAux " – ".data text.data with
  | some (a, b) => (String.mk (trimWs a), String.mk (trimWs b))
  | none =>
    match splitOnceAux " - ".data text.data with
    | some (a, b) => (String.mk (trimWs a), String.mk (trimWs b))
    | none =>
      let nm := String.mk (trimWs (text.data.takeWhile (fun c => c ≠ '.')))
      (nm, String.mk (trimWs (text.data.drop nm.length)))

/-- Substring test on character lists (Python `needle in hay`). -/
def listSub (needle : List Char) : List Char → Bool
  | [] => needle.isEmpty
  | c :: t => needle.isPrefixOf (c :: t) || listSub needle t

/-- Python `needle in hay` for strings. -/
def strContains (hay needle : String) : Bool :=
  listSub needle.data hay.data

/-- Lowercase a string with the ASCII lowercasing used throughout this model. -/
def lowerStr (s : String) : String :=
  String.mk (s.data.map toLowerA)

/-- Lines 384-392: keyword-based relationship-type classification. -/
def determineRelType (description : String) : String :=
  let d := lowerStr description
  if ["wife", "husband", "spouse"].any (fun t => strContains d t) then "spouse"
  else if ["son", "daughter", "child"].any (fun t => strContains d t) then "child"
  else if ["brother", "sister", "sibling"].any (fun t => strContains d t) then "sibling"
  else if ["father", "mother", "parent"].any (fun t => strContains d t) then "parent"
  else "family_relation"

/-- Model of `MediaOwnershipExtractor.process_family_member` (lines 349-426).
The `owner_name` parameter of the source is unused by its body. -/
def processFamilyMember (s : ExtractorState) (text owner_id owner_name : String) :
    ExtractorState :=
  let parsed := parseFamilyText text
  let family_member_name := parsed.1
  let description := parsed.2
  if family_member_name = "" || family_member_name.length < 3 then s
  else
    let family_member_id := sanitize_id family_member_name
    if family_member_id = owner_id then s
    else
      let rtype := determineRelType description
      let s1 :=
        if family_member_id ∈ dictKeys s.owners || family_member_id ∈ dictKeys s.entities then s
        else
          { s with
            owners := dictUpsert s.owners family_member_id
              { name := family_member_name, description := description, etype := "owner" }
            graph := addNode s.graph family_member_id }
      let rel : Relationship :=
        { source_id := owner_id, target_id := family_member_id, rtype := rtype,
          percentage := 0, description := description }
      { s1 with
        relationships := s1.relationships ++ [rel]
        graph := addEdge s1.graph owner_id family_member_id
          { etype := some rtype, description := some description } }

/-! ### The indirect-ownership calculator
(`MediaOwnershipExtractor.calculate_indirect_ownership`, lines 428-480) -/

/-- An edge of the ownership-only graph: source, target, percentage. -/
abbrev OwnEdge := String × String × ℚ

/-- Lines 432-437: the ownership-only graph, one `(u, v, percentage)` record per
`owns`-typed edge of `self.graph` (`d.get('percentage', 0)`). -/
def ownershipEdges (g : NxDiGraph) : List OwnEdge :=
  g.edges.filterMap (fun e =>
    if e.2.etype = some "owns" then some (e.1.1, e.1.2, e.2.percentage.getD 0) else none)

/-- Successors of `u` in the ownership-only graph, in edge order. -/
def succList (og : List OwnEdge) (u : String) : List String :=
  og.filterMap (fun e => if e.1 = u then some e.2.1 else none)

/-- Model of `ownership_graph.has_edge(u, v)`. -/
def hasOwnEdge (og : List OwnEdge) (u v : String) : Bool :=
  og.any (fun e => e.1 = u && e.2.1 = v)

/-- The `percentage` attribute of the edge `u -> v` of the ownership-only graph. -/
def getPct (og : List OwnEdge) (u v : String) : Option ℚ :=
  (og.find? (fun e => e.1 = u && e.2.1 = v)).map (fun e => e.2.2)

/-- All node occurrences of the ownership-only graph (a node of a graph built
solely by `add_edge` is an endpoint of some edge). -/
def nodesOf (og : List OwnEdge) : List String :=
  og.flatMap (fun e => [e.1, e.2.1])

/-- DFS behind `nx.all_simple_paths(G, source, target, cutoff)`: `visited` is
the simple path built so far (ending in `u`), `fuel` the number of edges that
may still be appended.  Reaching `target` yields `visited ++ [target]`. -/
def spAux (og : List OwnEdge) (t : String) : Nat → List String → String → List (List String)
  | 0, _, _ => []
  | fuel + 1, visited, u =>
    (succList og u).flatMap (fun v =>
      if v ∈ visited then []
      else if v = t then [visited ++ [v]]
      else spAux og t fuel (visited ++ [v]) v)

/-- Model of `nx.all_simple_paths(G, s, t, cutoff)` as a list of node lists: simple
directed paths from `s` to `t` with at most `cutoff` edges (empty when `s = t`,
as networkx returns an empty generator when the source is a target). -/
def simplePaths (og : List OwnEdge) (s t : String) (cutoff : Nat) : List (List String) :=
  if s = t then [] else spAux og t cutoff [s] s

/-- Model of `nx.has_path(G, s, t)`: `NodeNotFound` (modelled as `.error ()`) when either
endpoint is not a node, otherwise reachability, decided by searching for a
simple path of at most `|nodesOf og|` edges (an upper bound for simple paths). -/
def hasPathE (og : List OwnEdge) (s t : String) : Except Unit Bool :=
  if s ∈ nodesOf og then
    if t ∈ nodesOf og then
      .ok (s = t || !(spAux og t (nodesOf og).length [s] s).isEmpty)
    else .error ()
  else .error ()

/-- Lines 453-457: `path_percentage`, the running product over the consecutive
edges of a path, starting from `acc = 100.0`.  (Every edge of an enumerated
path exists and carries a `percentage` attribute by construction of the
ownership graph, so the `getD 0` default is never exercised there.) -/
def pathPct (og : List OwnEdge) : ℚ → List String → ℚ
  | acc, u :: v :: rest => pathPct og (acc * ((getPct og u v).getD 0 / 100)) (v :: rest)
  | acc, _ => acc

/-- Lines 451-460: the summed indirect percentage of an `(owner, entity)` pair. -/
def indirectPct (og : List OwnEdge) (o e : String) : ℚ :=
  ((simplePaths og o e 3).map (pathPct og 100)).sum

/-- Model of `f"{q:.2f}"` for the non-negative rationals reaching it: round to hundredths
and print with two decimal places. -/
def fmt2 (q : ℚ) : String :=
  let n : Int := round (q * 100)
  let frac := (n % 100).toNat
  toString (n / 100) ++ "." ++ (if frac < 10 then "0" else "") ++ toString frac

/-- Model of `f"Indirectly owns {p:.2f}% of {entity_name}"`. -/
def indirectDesc (pct : ℚ) (entity_name : String) : String :=
  "Indirectly owns " ++ fmt2 pct ++ "% of " ++ entity_name

/-- The body of the inner loop (lines 442-463) for one `(owner, entity)` pair:
`.ok none` = pair skipped, `.ok (some pct)` = an indirect edge with percentage
`pct` is to be emitted, `.error ()` = an exception was raised (`nx.has_path`
on a missing node), which the source's batch-level handler will catch. -/
def processPair (og : List OwnEdge) (o e : String) : Except Unit (Option ℚ) :=
  if hasOwnEdge og o e then .ok none
  else
    match hasPathE og o e with
    | .error _ => .error ()
    | .ok false => .ok none
    | .ok true =>
      let pct := indirectPct og o e
      if 1 < pct then .ok (some pct) else .ok none

/-- The relationship record appended at lines 471-478. -/
def mkIndirectRel (o e enm : String) (pct : ℚ) : Relationship :=
  { source_id := o, target_id := e, rtype := "indirect_owns", percentage := pct,
    description := indirectDesc pct enm }

/-- The `(owner_id, entity_id, entity_name)` triples visited by the two nested
loops of lines 440-441, in iteration order. -/
def pairList (s : ExtractorState) : List (String × String × String) :=
  s.owners.flatMap (fun op => s.entities.map (fun ep => (op.1, ep.1, ep.2.name)))

/-- The indirect relationships appended by the batch, in order.  An error on
one pair ends the batch: the `except` at line 479 sits outside both loops, so
no later pair is processed. -/
def emitList (og : List OwnEdge) : List (String × String × String) → List Relationship
  | [] => []
  | (o, e, enm) :: rest =>
    match processPair og o e with
    | .error _ => []
    | .ok none => emitList og rest
    | .ok (some pct) => mkIndirectRel o e enm pct :: emitList og rest

/-- The loop of lines 440-478 as a state transformer: each emitted pair appends
to `self.relationships` and adds an `indirect_owns` edge to `self.graph`; an
error keeps the mutations made so far and stops (batch-level `except`). -/
def ciGo (og : List OwnEdge) : List (String × String × String) → ExtractorState → ExtractorState
  | [], s => s
  | (o, e, enm) :: rest, s =>
    match processPair og o e with
    | .error _ => s
    | .ok none => ciGo og rest s
    | .ok (some pct) =>
      ciGo og rest
        { s with
          graph := addEdge s.graph o e
            { etype := some "indirect_owns", percentage := some pct,
              description := some (indirectDesc pct enm) }
          relationships := s.relationships ++ [mkIndirectRel o e enm pct] }

/-- Model of `MediaOwnershipExtractor.calculate_indirect_ownership` (lines 428-480).
The ownership-only graph is built once, before the loops, and never rebuilt. -/
def calculate_indirect_ownership (s : ExtractorState) : ExtractorState :=
  ciGo (ownershipEdges s.graph) (pairList s) s

/-- The indirect relationships a run of the calculator appends, in order. -/
def emittedRels (s : ExtractorState) : List Relationship :=
  emitList (ownershipEdges s.graph) (pairList s)

/-! ### Chains (directed paths as node lists), used to state the hop-limit claim -/

/-- Predicate: `p` is a directed path (as a node list) of the ownership-only graph:
every consecutive pair is an edge. -/
def isEdgeChain (og : List OwnEdge) : List String → Bool
  | u :: v :: rest => hasOwnEdge og u v && isEdgeChain og (v :: rest)
  | _ => true

/-- All directed walks from `a` with at most `k` edges (complete for chains,
hence for simple paths; used to discharge hop-limit hypotheses on concrete
graphs by evaluation). -/
def chainsFrom (og : List OwnEdge) (a : String) : Nat → List (List String)
  | 0 => [[a]]
  | k + 1 =>
    [a] :: (succList og a).flatMap (fun v => (chainsFrom og v k).map (fun p => a :: p))

/-! ### Example states used by witnesses and counterexamples -/

/-- Scenario: owner `a` owns `b` 60 percent, `b` owns `c` 50 percent. -/
def exS3 : ExtractorState :=
  { owners := [("a", { name := "A", etype := "owner" })]
    entities := [("b", { name := "B", etype := "company" }),
                 ("c", { name := "C", etype := "company" })]
    relationships := []
    graph := { nodes := ["a", "b", "c"]
               edges := [(("a", "b"), { etype := some "owns", percentage := some 60 }),
                         (("b", "c"), { etype := some "owns", percentage := some 50 })] } }

/-- Two disjoint two-hop paths from `a` to `c`: 60 * 50 and 40 * 50 percent. -/
def exS7 : ExtractorState :=
  { owners := [("a", { name := "A", etype := "owner" })]
    entities := [("c", { name := "C", etype := "company" })]
    relationships := []
    graph := { nodes := ["a", "b", "c", "d"]
               edges := [(("a", "b"), { etype := some "owns", percentage := some 60 }),
                         (("b", "c"), { etype := some "owns", percentage := some 50 }),
                         (("a", "d"), { etype := some "owns", percentage := some 40 }),
                         (("d", "c"), { etype := some "owns", percentage := some 50 })] } }

/-- A four-hop ownership chain from `a` to `e` with large percentages. -/
def exS6 : ExtractorState :=
  { owners := [("a", { name := "A", etype := "owner" })]
    entities := [("e", { name := "E", etype := "company" })]
    relationships := []
    graph := { nodes := ["a", "b", "c", "d", "e"]
               edges := [(("a", "b"), { etype := some "owns", percentage := some 90 }),
                         (("b", "c"), { etype := some "owns", percentage := some 90 }),
                         (("c", "d"), { etype := some "owns", percentage := some 90 }),
                         (("d", "e"), { etype := some "owns", percentage := some 90 })] } }

/-- Owner `w` (a family member, say) has no ownership edge, so it is not a node
of the ownership-only graph; owner `p` indirectly owns `r` through `q`.
The pair `(w, r)` is processed first and raises `NodeNotFound`. -/
def exS2 : ExtractorState :=
  { owners := [("w", { name := "W", etype := "owner" }),
               ("p", { name := "P", etype := "owner" })]
    entities := [("r", { name := "R", etype := "company" })]
    relationships := []
    graph := { nodes := ["w", "p", "q", "r"]
               edges := [(("p", "q"), { etype := some "owns", percentage := some 60 }),
                         (("q", "r"), { etype := some "owns", percentage := some 50 })] } }

/-- The graph after `add_edge("a", "b", type='owns', percentage=50, ...)`. -/
def exG5 : NxDiGraph :=
  addEdge {} "a" "b"
    { etype := some "owns", percentage := some 50, description := some "Owns 50% of B" }

/-- The scenario graph of C1 plus one extra owner `x` that has no ownership
edge; the pair `(x, c)` is iterated first. -/
def exS1 : ExtractorState :=
  { owners := [("x", { name := "X", etype := "owner" }),
               ("a", { name := "A", etype := "owner" })]
    entities := [("c", { name := "C", etype := "company" })]
    relationships := []
    graph := { nodes := ["x", "a", "b", "c"]
               edges := [(("a", "b"), { etype := some "owns", percentage := some 60 }),
                         (("b", "c"), { etype := some "owns", percentage := some 50 })] } }

/-- Membership of `k` in the registry: the owners collection or the entities
collection. -/
abbrev registeredIn (s : ExtractorState) (k : String) : Prop :=
  k ∈ dictKeys s.owners ∨ k ∈ dictKeys s.entities

/-- Both endpoints of a relationship are registered and are graph nodes. -/
abbrev relOK (s : ExtractorState) (r : Relationship) : Prop :=
  registeredIn s r.source_id ∧ registeredIn s r.target_id ∧
    r.source_id ∈ s.graph.nodes ∧ r.target_id ∈ s.graph.nodes

/-- The state invariant: every registry key is a graph node, and every
relationship on the list satisfies `relOK`. -/
abbrev StateInv (s : ExtractorState) : Prop :=
  (∀ k ∈ dictKeys s.owners, k ∈ s.graph.nodes) ∧
  (∀ k ∈ dictKeys s.entities, k ∈ s.graph.nodes) ∧
  (∀ r ∈ s.relationships, relOK s r)

/-- The binary relation "not two consecutive underscores". -/
def noTwoUnd (a b : Char) : Prop :=
  ¬(a = '_' ∧ b = '_')

/-! ### Lemmas about `sanitize_id` -/

/-- Character class of the output alphabet of `sanitizeList` apart from the
underscore: lowercase ASCII letters and digits. -/
def isLowerOut (c : Char) : Bool :=
  (97 ≤ c.toNat && c.toNat ≤ 122) || (48 ≤ c.toNat && c.toNat ≤ 57)

theorem charOfNat_toNat (n : Nat) (h : n < 55296) : (Char.ofNat n).toNat = n := by
  have hv : n.isValidChar := Or.inl h
  simp [Char.ofNat, hv, Char.ofNatAux, Char.toNat, UInt32.toNat, BitVec.toNat_ofNatLt]

theorem toLowerA_subChar_mem (c : Char) :
    toLowerA (subChar c) = '_' ∨ isLowerOut (toLowerA (subChar c)) = true := by
  by_cases h : isAlnumAscii c = true
  · rw [subChar, if_pos h]
    rw [isAlnumAscii] at h
    simp only [Bool.or_eq_true, Bool.and_eq_true, decide_eq_true_eq] at h
    rcases h with (h | h) | h
    · right
      rw [toLowerA, if_neg (by simp only [Bool.and_eq_true, decide_eq_true_eq]; omega)]
      simp only [isLowerOut, Bool.or_eq_true, Bool.and_eq_true, decide_eq_true_eq]
      omega
    · right
      rw [toLowerA, if_pos (by simp only [Bool.and_eq_true, decide_eq_true_eq]; omega)]
      have ht : (Char.ofNat (c.toNat + 32)).toNat = c.toNat + 32 :=
        charOfNat_toNat _ (by omega)
      simp only [isLowerOut, Bool.or_eq_true, Bool.and_eq_true, decide_eq_true_eq, ht]
      omega
    · right
      rw [toLowerA, if_neg (by simp only [Bool.and_eq_true, decide_eq_true_eq]; omega)]
      simp only [isLowerOut, Bool.or_eq_true, Bool.and_eq_true, decide_eq_true_eq]
      omega
  · left
    rw [subChar, if_neg h]
    decide

theorem toLowerA_subChar_fix (c : Char)
    (h : c = '_' ∨ isLowerOut c = true) : toLowerA (subChar c) = c := by
  rcases h with h | h
  · subst h; decide
  · rw [isLowerOut] at h
    simp only [Bool.or_eq_true, Bool.and_eq_true, decide_eq_true_eq] at h
    have ha : isAlnumAscii c = true := by
      simp only [isAlnumAscii, Bool.or_eq_true, Bool.and_eq_true, decide_eq_true_eq]
      omega
    rw [subChar, if_pos ha, toLowerA,
      if_neg (by simp only [Bool.and_eq_true, decide_eq_true_eq]; omega)]

theorem collapse_mem {l : List Char} {c : Char}
    (h : c ∈ collapseUnderscores l) : c ∈ l := by
  induction l with
  | nil => simpa [collapseUnderscores] using h
  | cons a t ih =>
    cases t with
    | nil => simpa [collapseUnderscores] using h
    | cons b t2 =>
      rw [collapseUnderscores] at h
      split at h
      · exact List.mem_cons_of_mem a (ih h)
      · rcases List.mem_cons.mp h with h | h
        · exact h ▸ List.mem_cons_self _ _
        · exact List.mem_cons_of_mem a (ih h)

theorem collapse_cons (c : Char) (l : List Char) :
    ∃ t, collapseUnderscores (c :: l) = c :: t := by
  induction l generalizing c with
  | nil => exact ⟨[], rfl⟩
  | cons b t2 ih =>
    rw [collapseUnderscores]
    split
    · next hcd =>
      simp only [Bool.and_eq_true, decide_eq_true_eq] at hcd
      obtain ⟨t, ht⟩ := ih b
      exact ⟨t, by rw [ht, hcd.1, hcd.2]⟩
    · exact ⟨_, rfl⟩

theorem collapse_chain (l : List Char) :
    List.Chain' noTwoUnd (collapseUnderscores l) := by
  induction l with
  | nil => simp [collapseUnderscores]
  | cons a t ih =>
    cases t with
    | nil => simp [collapseUnderscores]
    | cons b t2 =>
      rw [collapseUnderscores]
      split
      · exact ih
      · next hcd =>
        obtain ⟨t, ht⟩ := collapse_cons b t2
        rw [ht]
        rw [ht] at ih
        refine List.chain'_cons.mpr ⟨?_, ih⟩
        intro hab
        simp [hab.1, hab.2] at hcd

theorem collapse_eq_self {l : List Char}
    (h : List.Chain' noTwoUnd l) : collapseUnderscores l = l := by
  induction l with
  | nil => rfl
  | cons a t ih =>
    cases t with
    | nil => rfl
    | cons b t2 =>
      rw [collapseUnderscores]
      rw [List.chain'_cons] at h
      have hcond : ¬((a = '_' && b = '_') = true) := by
        simp only [Bool.and_eq_true, decide_eq_true_eq]
        exact h.1
      rw [if_neg hcond, ih h.2]

theorem dropWhile_head_not {p : Char → Bool} {l : List Char} {c : Char}
    (h : (l.dropWhile p).head? = some c) : p c = false := by
  induction l with
  | nil => simp [List.dropWhile] at h
  | cons a t ih =>
    rw [List.dropWhile_cons] at h
    split at h
    · exact ih h
    · simp_all

theorem strip_mem {x c : Char} {l : List Char}
    (h : c ∈ stripChar x l) : c ∈ l := by
  rw [stripChar] at h
  rw [List.mem_reverse] at h
  have h1 := (List.dropWhile_suffix _).subset h
  rw [List.mem_reverse] at h1
  exact (List.dropWhile_suffix _).subset h1

theorem strip_chain {l : List Char}
    (h : List.Chain' noTwoUnd l) : List.Chain' noTwoUnd (stripChar '_' l) := by
  have hsymm : ∀ (m : List Char), List.Chain' noTwoUnd m →
      List.Chain' noTwoUnd m.reverse := by
    intro m hm
    rw [List.chain'_reverse]
    exact hm.imp (fun a b hab => by
      intro hx
      exact hab ⟨hx.2, hx.1⟩)
  rw [stripChar]
  exact hsymm _ ((hsymm _ (h.suffix (List.dropWhile_suffix _))).suffix
    (List.dropWhile_suffix _))

theorem strip_head_not {x c : Char} {l : List Char}
    (h : (stripChar x l).head? = some c) : c ≠ x := by
  rw [stripChar, List.head?_reverse] at h
  have h2 : ((l.dropWhile (fun c => c = x)).reverse.dropWhile (fun c => c = x)) ≠ [] := by
    intro hnil
    rw [hnil] at h
    simp at h
  obtain ⟨pre, hpre⟩ :=
    List.dropWhile_suffix (l := (l.dropWhile (fun c => c = x)).reverse) (fun c => c = x)
  have h3 : (l.dropWhile (fun c => c = x)).head? = some c := by
    rw [← List.getLast?_reverse, ← hpre, List.getLast?_append_of_ne_nil _ h2]
    exact h
  have h4 := dropWhile_head_not h3
  simpa using h4

theorem strip_last_not {x c : Char} {l : List Char}
    (h : (stripChar x l).getLast? = some c) : c ≠ x := by
  rw [stripChar, List.getLast?_reverse] at h
  have := dropWhile_head_not h
  simpa using this

theorem dropWhile_eq_self_of_head {p : Char → Bool} {l : List Char}
    (h : ∀ c, l.head? = some c → p c = false) : l.dropWhile p = l := by
  cases l with
  | nil => rfl
  | cons a t =>
    rw [List.dropWhile_cons, if_neg (by simp [h a rfl])]

theorem strip_eq_self {x : Char} {l : List Char}
    (h1 : ∀ c, l.head? = some c → c ≠ x) (h2 : ∀ c, l.getLast? = some c → c ≠ x) :
    stripChar x l = l := by
  rw [stripChar]
  rw [dropWhile_eq_self_of_head (l := l) (fun c hc => by simpa using h1 c hc)]
  rw [dropWhile_eq_self_of_head (l := l.reverse) (fun c hc => by
    rw [List.head?_reverse] at hc
    simpa using h2 c hc)]
  exact List.reverse_reverse l

theorem sanitizeList_mem {l : List Char} {c : Char}
    (h : c ∈ sanitizeList l) : c = '_' ∨ isLowerOut c = true := by
  rw [sanitizeList] at h
  have h1 := collapse_mem (strip_mem h)
  rw [List.map_map, List.mem_map] at h1
  obtain ⟨c0, _, hc0⟩ := h1
  rw [← hc0]
  exact toLowerA_subChar_mem c0

theorem sanitizeList_fix (l : List Char) :
    sanitizeList (sanitizeList l) = sanitizeList l := by
  have hmap : ((sanitizeList l).map subChar).map toLowerA = sanitizeList l := by
    rw [List.map_map]
    have h : ∀ c ∈ sanitizeList l, (toLowerA ∘ subChar) c = id c := fun c hc =>
      toLowerA_subChar_fix c (sanitizeList_mem hc)
    rw [List.map_congr_left h, List.map_id]
  have hchain : List.Chain' noTwoUnd (sanitizeList l) := by
    rw [sanitizeList]
    exact strip_chain (collapse_chain _)
  show stripChar '_' (collapseUnderscores (((sanitizeList l).map subChar).map toLowerA)) =
    sanitizeList l
  rw [hmap, collapse_eq_self hchain]
  refine strip_eq_self ?_ ?_
  · intro c hc
    rw [sanitizeList] at hc
    exact strip_head_not hc
  · intro c hc
    rw [sanitizeList] at hc
    exact strip_last_not hc

theorem collapse_replicate (n : Nat) :
    collapseUnderscores (List.replicate (n + 1) '_') = ['_'] := by
  induction n with
  | zero => rfl
  | succ k ih =>
    have hr : List.replicate (k + 2) '_' = '_' :: '_' :: List.replicate k '_' := by
      simp [List.replicate_succ]
    have hr2 : ('_' : Char) :: List.replicate k '_' = List.replicate (k + 1) '_' := by
      simp [List.replicate_succ]
    rw [hr, collapseUnderscores, if_pos (by decide), hr2, ih]

theorem sanitizeList_all_non_alnum {l : List Char} (hne : l ≠ [])
    (h : ∀ c ∈ l, isAlnumAscii c = false) : sanitizeList l = [] := by
  have hmap : (l.map subChar).map toLowerA = List.replicate l.length '_' := by
    rw [List.map_map]
    have hc : ∀ c ∈ l, (toLowerA ∘ subChar) c = (fun _ => '_') c := by
      intro c hc
      have h1 : subChar c = '_' := by
        rw [subChar, if_neg (by simp [h c hc])]
      simp only [Function.comp_apply, h1]
      decide
    rw [List.map_congr_left hc]
    exact List.map_const' l '_'
  rw [sanitizeList, hmap]
  obtain ⟨c0, t, rfl⟩ : ∃ c0 t, l = c0 :: t := by
    cases l with
    | nil => exact absurd rfl hne
    | cons a t => exact ⟨a, t, rfl⟩
  rw [List.length_cons, collapse_replicate]
  rfl

/-! ### Lemmas about the `DiGraph` model -/

theorem mergeAttrs_default (a : EdgeAttrs) : mergeAttrs {} a = a := by
  obtain ⟨t, p, d⟩ := a
  cases t <;> cases p <;> cases d <;> rfl

theorem addNode_edges (g : NxDiGraph) (n : String) : (addNode g n).edges = g.edges := by
  rw [addNode]
  split <;> rfl

theorem addEdge_edges (g : NxDiGraph) (u v : String) (a : EdgeAttrs) :
    (addEdge g u v a).edges = updateEdges g.edges u v a := by
  rw [addEdge]
  simp only [addNode_edges]

theorem find?_updateEdges_self (u v : String) (a : EdgeAttrs) :
    ∀ l : List ((String × String) × EdgeAttrs),
      ((updateEdges l u v a).find? (fun e => e.1 = (u, v))).map (fun e => e.2) =
        some (mergeAttrs (((l.find? (fun e => e.1 = (u, v))).map (fun e => e.2)).getD {}) a)
  | [] => by
    simp [updateEdges, List.find?, mergeAttrs_default]
  | e :: rest => by
    rw [updateEdges]
    by_cases he : e.1 = (u, v)
    · rw [if_pos he]
      rw [List.find?_cons_of_pos _ (by simp [he]), List.find?_cons_of_pos _ (by simp [he])]
      rfl
    · rw [if_neg he]
      rw [List.find?_cons_of_neg _ (by simp [he]), List.find?_cons_of_neg _ (by simp [he])]
      exact find?_updateEdges_self u v a rest

theorem find?_updateEdges_other (u v p q : String) (a : EdgeAttrs) (hne : ¬(p = u ∧ q = v)) :
    ∀ l : List ((String × String) × EdgeAttrs),
      (updateEdges l u v a).find? (fun e => e.1 = (p, q)) = l.find? (fun e => e.1 = (p, q))
  | [] => by
    have : ((u, v) : String × String) ≠ (p, q) := by
      intro hx
      exact hne ⟨congrArg Prod.fst hx.symm, congrArg Prod.snd hx.symm⟩
    simp [updateEdges, List.find?, this]
  | e :: rest => by
    rw [updateEdges]
    by_cases he : e.1 = (u, v)
    · rw [if_pos he]
      by_cases hpq : e.1 = (p, q)
      · exfalso
        apply hne
        have hx : ((p, q) : String × String) = (u, v) := by rw [← hpq, he]
        exact ⟨congrArg Prod.fst hx, congrArg Prod.snd hx⟩
      · rw [List.find?_cons_of_neg _ (by simp [hpq]), List.find?_cons_of_neg _ (by simp [hpq])]
    · rw [if_neg he]
      by_cases hpq : e.1 = (p, q)
      · rw [List.find?_cons_of_pos _ (by simp [hpq]), List.find?_cons_of_pos _ (by simp [hpq])]
      · rw [List.find?_cons_of_neg _ (by simp [hpq]), List.find?_cons_of_neg _ (by simp [hpq])]
        exact find?_updateEdges_other u v p q a hne rest

theorem updateEdges_keys_sub (u v : String) (a : EdgeAttrs) :
    ∀ l : List ((String × String) × EdgeAttrs), ∀ k,
      k ∈ (updateEdges l u v a).map Prod.fst → k ∈ l.map Prod.fst ∨ k = (u, v)
  | [], k => by
    intro h
    simp [updateEdges] at h
    exact Or.inr h
  | e :: rest, k => by
    intro h
    rw [updateEdges] at h
    by_cases he : e.1 = (u, v)
    · rw [if_pos he] at h
      simp only [List.map_cons, List.mem_cons] at h ⊢
      rcases h with h | h
      · exact Or.inl (Or.inl h)
      · exact Or.inl (Or.inr h)
    · rw [if_neg he] at h
      simp only [List.map_cons, List.mem_cons] at h ⊢
      rcases h with h | h
      · exact Or.inl (Or.inl h)
      · rcases updateEdges_keys_sub u v a rest k h with h2 | h2
        · exact Or.inl (Or.inr h2)
        · exact Or.inr h2

theorem updateEdges_wf (u v : String) (a : EdgeAttrs) :
    ∀ l : List ((String × String) × EdgeAttrs), (l.map Prod.fst).Nodup →
      ((updateEdges l u v a).map Prod.fst).Nodup
  | [], _ => by simp [updateEdges]
  | e :: rest, hwf => by
    rw [updateEdges]
    rw [List.map_cons, List.nodup_cons] at hwf
    by_cases he : e.1 = (u, v)
    · rw [if_pos he]
      rw [List.map_cons, List.nodup_cons]
      exact hwf
    · rw [if_neg he]
      rw [List.map_cons, List.nodup_cons]
      refine ⟨?_, updateEdges_wf u v a rest hwf.2⟩
      intro hmem
      rcases updateEdges_keys_sub u v a rest e.1 hmem with h2 | h2
      · exact hwf.1 h2
      · exact he h2

theorem updateEdges_countP (u v : String) (a : EdgeAttrs) :
    ∀ l : List ((String × String) × EdgeAttrs), (l.map Prod.fst).Nodup →
      (updateEdges l u v a).countP (fun e => e.1 = (u, v)) = 1
  | [], _ => by simp [updateEdges]
  | e :: rest, hwf => by
    rw [updateEdges]
    rw [List.map_cons, List.nodup_cons] at hwf
    by_cases he : e.1 = (u, v)
    · rw [if_pos he]
      rw [List.countP_cons_of_pos _ _ (by simp [he])]
      have hz : rest.countP (fun e => e.1 = (u, v)) = 0 := by
        rw [List.countP_eq_zero]
        intro e2 he2
        simp only [decide_eq_true_eq]
        intro hx
        exact hwf.1 (he ▸ hx ▸ List.mem_map_of_mem Prod.fst he2)
      rw [hz]
    · rw [if_neg he]
      rw [List.countP_cons_of_neg _ _ (by simp [he])]
      exact updateEdges_countP u v a rest hwf.2

/-! ### Lemmas about the indirect-ownership calculator -/

theorem ciGo_owners (og : List OwnEdge) :
    ∀ l s, (ciGo og l s).owners = s.owners
  | [], _ => rfl
  | (o, e, enm) :: rest, s => by
    rw [ciGo]
    cases hpp : processPair og o e with
    | error err => simp only
    | ok r =>
      cases r with
      | none =>
        simp only
        exact ciGo_owners og rest s
      | some pct =>
        simp only
        exact ciGo_owners og rest _

theorem ciGo_entities (og : List OwnEdge) :
    ∀ l s, (ciGo og l s).entities = s.entities
  | [], _ => rfl
  | (o, e, enm) :: rest, s => by
    rw [ciGo]
    cases hpp : processPair og o e with
    | error err => simp only
    | ok r =>
      cases r with
      | none =>
        simp only
        exact ciGo_entities og rest s
      | some pct =>
        simp only
        exact ciGo_entities og rest _

theorem ciGo_relationships (og : List OwnEdge) :
    ∀ l s, (ciGo og l s).relationships = s.relationships ++ emitList og l
  | [], s => by simp [ciGo, emitList]
  | (o, e, enm) :: rest, s => by
    rw [ciGo, emitList]
    cases hpp : processPair og o e with
    | error err => simp only [List.append_nil]
    | ok r =>
      cases r with
      | none =>
        simp only
        exact ciGo_relationships og rest s
      | some pct =>
        simp only
        rw [ciGo_relationships og rest]
        simp [List.append_assoc]

theorem processPair_ok_some {og : List OwnEdge} {o e : String} {pct : ℚ}
    (h : processPair og o e = .ok (some pct)) :
    hasOwnEdge og o e = false ∧ pct = indirectPct og o e ∧ 1 < pct := by
  rw [processPair] at h
  by_cases h1 : hasOwnEdge og o e = true
  · rw [if_pos h1] at h
    simp at h
  · rw [if_neg h1] at h
    cases hp : hasPathE og o e with
    | error err =>
      rw [hp] at h
      simp at h
    | ok b =>
      rw [hp] at h
      cases b with
      | false => simp at h
      | true =>
        simp only at h
        by_cases h2 : 1 < indirectPct og o e
        · rw [if_pos h2] at h
          have h3 : indirectPct og o e = pct := by simpa using h
          exact ⟨by simpa using h1, h3.symm, h3 ▸ h2⟩
        · rw [if_neg h2] at h
          simp at h

theorem emitList_mem (og : List OwnEdge) (r : Relationship) :
    ∀ l : List (String × String × String), r ∈ emitList og l →
      ∃ x ∈ l, ∃ pct : ℚ, processPair og x.1 x.2.1 = .ok (some pct) ∧
        r = mkIndirectRel x.1 x.2.1 x.2.2 pct
  | [] => by
    intro h
    simp [emitList] at h
  | (o, e, enm) :: rest => by
    intro h
    rw [emitList] at h
    cases hpp : processPair og o e with
    | error err =>
      rw [hpp] at h
      simp at h
    | ok ro =>
      cases ro with
      | none =>
        rw [hpp] at h
        obtain ⟨x, hx, pct, hpct, hr⟩ := emitList_mem og r rest h
        exact ⟨x, List.mem_cons_of_mem _ hx, pct, hpct, hr⟩
      | some pct =>
        rw [hpp] at h
        rcases List.mem_cons.mp h with h | h
        · exact ⟨(o, e, enm), List.mem_cons_self _ _, pct, hpp, h⟩
        · obtain ⟨x, hx, pct2, hpct, hr⟩ := emitList_mem og r rest h
          exact ⟨x, List.mem_cons_of_mem _ hx, pct2, hpct, hr⟩

theorem pairList_mem {s : ExtractorState} {x : String × String × String}
    (h : x ∈ pairList s) :
    x.1 ∈ dictKeys s.owners ∧ x.2.1 ∈ dictKeys s.entities := by
  rw [pairList, List.mem_flatMap] at h
  obtain ⟨op, hop, hx⟩ := h
  rw [List.mem_map] at hx
  obtain ⟨ep, hep, rfl⟩ := hx
  exact ⟨List.mem_map_of_mem _ hop, List.mem_map_of_mem _ hep⟩

theorem emitList_stops (og : List OwnEdge) (x : String × String × String)
    (l2 : List (String × String × String)) :
    ∀ l1 : List (String × String × String),
      (∀ y ∈ l1, (processPair og y.1 y.2.1).isOk = true) →
      (processPair og x.1 x.2.1).isOk = false →
      emitList og (l1 ++ x :: l2) = emitList og l1
  | [] => by
    intro _ hx
    rw [List.nil_append, emitList, emitList]
    obtain ⟨o, e, enm⟩ := x
    cases hpp : processPair og o e with
    | error err => simp only
    | ok ro =>
      rw [hpp] at hx
      simp [Except.isOk, Except.toBool] at hx
  | y :: rest => by
    intro h1 hx
    rw [List.cons_append, emitList, emitList]
    obtain ⟨o, e, enm⟩ := y
    cases hpp : processPair og o e with
    | error err => simp only
    | ok ro =>
      cases ro with
      | none =>
        simp only
        exact emitList_stops og x l2 rest (fun z hz => h1 z (List.mem_cons_of_mem _ hz)) hx
      | some pct =>
        simp only
        rw [emitList_stops og x l2 rest (fun z hz => h1 z (List.mem_cons_of_mem _ hz)) hx]

/-! ### Lemmas about the path enumeration -/

theorem mem_succList {og : List OwnEdge} {u v : String} :
    v ∈ succList og u ↔ hasOwnEdge og u v = true := by
  rw [succList, hasOwnEdge, List.mem_filterMap, List.any_eq_true]
  constructor
  · rintro ⟨e, he, hev⟩
    refine ⟨e, he, ?_⟩
    by_cases h1 : e.1 = u
    · rw [if_pos h1] at hev
      have h2 : e.2.1 = v := by simpa using hev
      simp [h1, h2]
    · rw [if_neg h1] at hev
      simp at hev
  · rintro ⟨e, he, hb⟩
    simp only [Bool.and_eq_true, decide_eq_true_eq] at hb
    exact ⟨e, he, by rw [if_pos hb.1]; simp [hb.2]⟩

theorem getPct_mem {og : List OwnEdge} {u v : String} {p : ℚ}
    (h : getPct og u v = some p) : (u, v, p) ∈ og := by
  rw [getPct] at h
  cases hf : og.find? (fun e => e.1 = u && e.2.1 = v) with
  | none =>
    rw [hf] at h
    simp at h
  | some e =>
    rw [hf] at h
    have hm := List.mem_of_find?_eq_some hf
    have hp := List.find?_some hf
    simp only [Bool.and_eq_true, decide_eq_true_eq] at hp
    have h3 : e.2.2 = p := by simpa using h
    rw [← hp.1, ← hp.2, ← h3]
    exact hm

theorem mem_nodesOf_left {og : List OwnEdge} {e : OwnEdge} (h : e ∈ og) :
    e.1 ∈ nodesOf og := by
  rw [nodesOf, List.mem_flatMap]
  exact ⟨e, h, by simp⟩

theorem mem_nodesOf_right {og : List OwnEdge} {e : OwnEdge} (h : e ∈ og) :
    e.2.1 ∈ nodesOf og := by
  rw [nodesOf, List.mem_flatMap]
  exact ⟨e, h, by simp⟩

theorem spAux_sound (og : List OwnEdge) (t : String) :
    ∀ (fuel : Nat) (visited : List String) (u : String) (p : List String),
      p ∈ spAux og t fuel visited u →
      ∃ q, q ≠ [] ∧ p = visited ++ q ∧ isEdgeChain og (u :: q) = true ∧
        (u :: q).getLast? = some t ∧ q.length ≤ fuel ∧
        (∀ x ∈ q, x ∉ visited) ∧ q.Nodup
  | 0, visited, u, p => by
    intro h
    simp [spAux] at h
  | fuel + 1, visited, u, p => by
    intro h
    rw [spAux, List.mem_flatMap] at h
    obtain ⟨v, hv, hp⟩ := h
    by_cases h1 : v ∈ visited
    · rw [if_pos h1] at hp
      simp at hp
    · rw [if_neg h1] at hp
      by_cases h2 : v = t
      · rw [if_pos h2] at hp
        have hpv : p = visited ++ [v] := by simpa using hp
        have he : hasOwnEdge og u v = true := mem_succList.mp hv
        refine ⟨[v], by simp, hpv, by simp [isEdgeChain, he], ?_, by simp, ?_, by simp⟩
        · rw [List.getLast?_cons_cons, List.getLast?_singleton, h2]
        · intro x hx
          simp only [List.mem_singleton] at hx
          subst hx
          exact h1
      · rw [if_neg h2] at hp
        obtain ⟨q2, hq2ne, hq2p, hchain, hlast, hlen, hnotin, hnd⟩ :=
          spAux_sound og t fuel (visited ++ [v]) v p hp
        have he : hasOwnEdge og u v = true := mem_succList.mp hv
        refine ⟨v :: q2, by simp, ?_, ?_, ?_, ?_, ?_, ?_⟩
        · rw [hq2p, List.append_assoc]
          rfl
        · rw [isEdgeChain, he, hchain]
          rfl
        · rw [List.getLast?_cons_cons]
          exact hlast
        · simpa using Nat.succ_le_succ hlen
        · intro x hx
          rcases List.mem_cons.mp hx with rfl | hx2
          · exact h1
          · intro hxv
            exact hnotin x hx2 (List.mem_append_left _ hxv)
        · rw [List.nodup_cons]
          refine ⟨?_, hnd⟩
          intro hvq2
          exact hnotin v hvq2 (List.mem_append_right _ (by simp))

theorem spAux_mono (og : List OwnEdge) (t : String) :
    ∀ (f1 f2 : Nat), f1 ≤ f2 → ∀ (visited : List String) (u : String) (p : List String),
      p ∈ spAux og t f1 visited u → p ∈ spAux og t f2 visited u
  | 0, f2, _, visited, u, p => by
    intro h
    simp [spAux] at h
  | f1 + 1, f2, hle, visited, u, p => by
    intro h
    obtain ⟨f3, rfl⟩ : ∃ f3, f2 = f3 + 1 := ⟨f2 - 1, by omega⟩
    rw [spAux, List.mem_flatMap] at h ⊢
    obtain ⟨v, hv, hp⟩ := h
    refine ⟨v, hv, ?_⟩
    by_cases h1 : v ∈ visited
    · rw [if_pos h1] at hp ⊢
      exact hp
    · rw [if_neg h1] at hp ⊢
      by_cases h2 : v = t
      · rw [if_pos h2] at hp ⊢
        exact hp
      · rw [if_neg h2] at hp ⊢
        exact spAux_mono og t f1 f3 (by omega) (visited ++ [v]) v p hp

theorem chainsFrom_complete (og : List OwnEdge) :
    ∀ (k : Nat) (p : List String) (a : String),
      isEdgeChain og p = true → p.head? = some a → p.length ≤ k + 1 →
      p ∈ chainsFrom og a k
  | 0, p, a => by
    intro hchain hhead hlen
    cases p with
    | nil => simp at hhead
    | cons x rest =>
      have hx : x = a := by simpa using hhead
      subst hx
      cases rest with
      | nil => simp [chainsFrom]
      | cons y t =>
        exfalso
        simp only [List.length_cons] at hlen
        omega
  | k + 1, p, a => by
    intro hchain hhead hlen
    cases p with
    | nil => simp at hhead
    | cons x rest =>
      have hx : x = a := by simpa using hhead
      subst hx
      cases rest with
      | nil =>
        rw [chainsFrom]
        exact List.mem_cons_self _ _
      | cons v rest2 =>
        rw [chainsFrom]
        rw [isEdgeChain] at hchain
        simp only [Bool.and_eq_true] at hchain
        refine List.mem_cons_of_mem _ ?_
        rw [List.mem_flatMap]
        refine ⟨v, mem_succList.mpr hchain.1, ?_⟩
        rw [List.mem_map]
        refine ⟨v :: rest2, ?_, rfl⟩
        refine chainsFrom_complete og k (v :: rest2) v hchain.2 rfl ?_
        simp only [List.length_cons] at hlen ⊢
        omega

/-! ### C4 — idempotence of `sanitize_id` -/

/-- C4 (counterexample): `sanitize_id` is not idempotent on every string.
`sanitize_id "-" = ""` but renormalising the result gives the sentinel
`"unknown"`, because the empty string takes the `if not name` branch. -/
theorem claim4_cex :
    sanitize_id "-" = "" ∧ sanitize_id (sanitize_id "-") = "unknown" ∧
      sanitize_id (sanitize_id "-") ≠ sanitize_id "-" :=
  ⟨by decide, by decide, by decide⟩

/-- C4 (amended): `sanitize_id` is idempotent on every string whose normalised
form is non-empty, i.e. unless the input is non-empty and free of ASCII
alphanumeric characters. -/
theorem claim4_idem (x : String) (h : sanitize_id x ≠ "") :
    sanitize_id (sanitize_id x) = sanitize_id x := by
  by_cases hx : x = ""
  · subst hx
    decide
  · have hy : sanitize_id x = String.mk (sanitizeList x.data) := by
      rw [sanitize_id, if_neg hx]
    rw [hy] at h ⊢
    rw [sanitize_id, if_neg h]
    show String.mk (sanitizeList (sanitizeList x.data)) = String.mk (sanitizeList x.data)
    rw [sanitizeList_fix]

theorem claim4_witness :
    sanitize_id "Hello,  World!" ≠ "" ∧
      sanitize_id (sanitize_id "Hello,  World!") = sanitize_id "Hello,  World!" :=
  ⟨by decide, claim4_idem "Hello,  World!" (by decide)⟩

/-! ### C10 — non-empty inputs without alphanumerics normalise to `""` -/

/-- C10: every non-empty string with no ASCII alphanumeric character is mapped
by `sanitize_id` to the empty string (not to the sentinel `"unknown"`), so all
such names collide on the same empty identifier. -/
theorem claim10_empty_id (x : String) (hne : x ≠ "")
    (h : ∀ c ∈ x.data, isAlnumAscii c = false) : sanitize_id x = "" := by
  rw [sanitize_id, if_neg hne]
  have hd : x.data ≠ [] := by
    intro hnil
    apply hne
    cases x with
    | mk d =>
      subst hnil
      rfl
  rw [sanitizeList_all_non_alnum hd h]

theorem claim10_witness :
    "***" ≠ "" ∧ sanitize_id "***" = "" ∧ sanitize_id "-" = sanitize_id "***" := by
  refine ⟨by decide, claim10_empty_id "***" (by decide) (by decide), ?_⟩
  rw [claim10_empty_id "***" (by decide) (by decide)]
  decide

/-! ### C5 — edge overwriting in the `DiGraph` -/

/-- C5 (counterexample): re-adding the edge `a -> b` with a different `type`
does not retain both edges.  `nx.DiGraph` keeps a single edge per ordered pair:
the `type` attribute is overwritten (and attributes not supplied, such as
`percentage`, are retained), so no `owns`-typed edge remains queryable. -/
theorem claim5_cex :
    (addEdge exG5 "a" "b"
        { etype := some "family_relation", description := some "his wife" }).edges.length = 1 ∧
    ((addEdge exG5 "a" "b"
        { etype := some "family_relation", description := some "his wife" }).edges.filter
      (fun e => e.2.etype = some "owns")).length = 0 ∧
    getEdge (addEdge exG5 "a" "b"
        { etype := some "family_relation", description := some "his wife" }) "a" "b" =
      some { etype := some "family_relation", percentage := some 50,
             description := some "his wife" } :=
  ⟨by decide, by decide, by decide⟩

/-- C5 (amended): the extractor's graph keeps at most one edge per ordered pair
regardless of `type`: `add_edge` on an existing pair overwrites, merging the
attribute dict (supplied attributes, including `type`, override; absent ones
are retained), and leaves every other ordered pair untouched. -/
theorem claim5_last_type_wins (g : NxDiGraph) (u v : String) (a : EdgeAttrs)
    (hwf : GraphWF g) :
    GraphWF (addEdge g u v a) ∧
    (addEdge g u v a).edges.countP (fun e => e.1 = (u, v)) = 1 ∧
    getEdge (addEdge g u v a) u v = some (mergeAttrs ((getEdge g u v).getD {}) a) ∧
    ∀ p q : String, ¬(p = u ∧ q = v) → getEdge (addEdge g u v a) p q = getEdge g p q := by
  refine ⟨?_, ?_, ?_, ?_⟩
  · rw [GraphWF, addEdge_edges]
    exact updateEdges_wf u v a g.edges hwf
  · rw [addEdge_edges]
    exact updateEdges_countP u v a g.edges hwf
  · rw [getEdge, addEdge_edges, find?_updateEdges_self]
    rfl
  · intro p q hpq
    rw [getEdge, getEdge, addEdge_edges, find?_updateEdges_other u v p q a hpq]

theorem claim5_witness :
    GraphWF (addEdge exG5 "a" "b"
      { etype := some "family_relation", description := some "his wife" }) ∧
    (addEdge exG5 "a" "b"
        { etype := some "family_relation", description := some "his wife" }).edges.countP
      (fun e => e.1 = ("a", "b")) = 1 ∧
    getEdge (addEdge exG5 "a" "b"
        { etype := some "family_relation", description := some "his wife" }) "a" "b" =
      some (mergeAttrs ((getEdge exG5 "a" "b").getD {})
        { etype := some "family_relation", description := some "his wife" }) := by
  have h := claim5_last_type_wins exG5 "a" "b"
    { etype := some "family_relation", description := some "his wife" }
    (by show (exG5.edges.map Prod.fst).Nodup; decide)
  exact ⟨h.1, h.2.1, h.2.2.1⟩

/-! ### C2 — failure semantics of the batch -/

/-- C2 (counterexample): an error on one pair does not merely skip that pair.
In `exS2` the pair `(w, r)` raises (`w` is not a node of the ownership-only
graph, so `nx.has_path` raises `NodeNotFound`), and the batch stops: the later
pair `(p, r)`, which on its own would emit a 30 percent indirect edge, is never
processed and nothing at all is emitted. -/
theorem claim2_cex :
    (processPair (ownershipEdges exS2.graph) "w" "r").isOk = false ∧
    (processPair (ownershipEdges exS2.graph) "p" "r").toOption = some (some 30) ∧
    emittedRels exS2 = [] :=
  ⟨by decide, by decide, by decide⟩

/-- C2 (amended): an error while processing one pair is caught by the handler
that wraps the whole batch: the relationships emitted for pairs processed
before the failure are kept and the error does not propagate to the caller,
but the failing pair and every pair after it are skipped — the batch does not
continue. -/
theorem claim2_error_stops_batch (og : List OwnEdge) (s : ExtractorState)
    (l1 l2 : List (String × String × String)) (x : String × String × String)
    (h1 : ∀ y ∈ l1, (processPair og y.1 y.2.1).isOk = true)
    (hx : (processPair og x.1 x.2.1).isOk = false) :
    emitList og (l1 ++ x :: l2) = emitList og l1 ∧
    (ciGo og (l1 ++ x :: l2) s).relationships = s.relationships ++ emitList og l1 := by
  have h := emitList_stops og x l2 l1 h1 hx
  exact ⟨h, by rw [ciGo_relationships, h]⟩

theorem claim2_witness :
    emitList (ownershipEdges exS2.graph) ([] ++ ("w", "r", "R") :: [("p", "r", "R")]) =
      emitList (ownershipEdges exS2.graph) [] ∧
    (ciGo (ownershipEdges exS2.graph)
        ([] ++ ("w", "r", "R") :: [("p", "r", "R")]) exS2).relationships =
      exS2.relationships ++ emitList (ownershipEdges exS2.graph) [] :=
  claim2_error_stops_batch (ownershipEdges exS2.graph) exS2 [] [("p", "r", "R")]
    ("w", "r", "R") (by intro y hy; simp at hy) (by decide)

/-! ### C3 — guard conditions for emitting an indirect edge -/

/-- C3: every relationship emitted by `calculate_indirect_ownership` concerns a
pair with no direct `owns` edge in the ownership-only graph and carries the
summed indirect percentage, which strictly exceeds the 1.0 threshold; for a
pair with a direct edge, or with summed percentage at most 1.0, nothing is
emitted. -/
theorem claim3_threshold_and_no_direct (s : ExtractorState) (r : Relationship)
    (hr : r ∈ emittedRels s) :
    (calculate_indirect_ownership s).relationships = s.relationships ++ emittedRels s ∧
    hasOwnEdge (ownershipEdges s.graph) r.source_id r.target_id = false ∧
    r.percentage = indirectPct (ownershipEdges s.graph) r.source_id r.target_id ∧
    1 < r.percentage ∧ r.rtype = "indirect_owns" := by
  obtain ⟨x, hx, pct, hpp, rfl⟩ := emitList_mem _ r _ hr
  obtain ⟨hno, hpct, hgt⟩ := processPair_ok_some hpp
  refine ⟨ciGo_relationships _ _ _, ?_, ?_, ?_, rfl⟩
  · simpa [mkIndirectRel] using hno
  · simpa [mkIndirectRel] using hpct
  · simpa [mkIndirectRel] using hgt

theorem claim3_witness :
    mkIndirectRel "a" "c" "C" 30 ∈ emittedRels exS3 ∧
    hasOwnEdge (ownershipEdges exS3.graph) "a" "c" = false ∧
    (mkIndirectRel "a" "c" "C" 30).percentage =
      indirectPct (ownershipEdges exS3.graph) "a" "c" ∧
    1 < (mkIndirectRel "a" "c" "C" 30).percentage := by
  have h := claim3_threshold_and_no_direct exS3 (mkIndirectRel "a" "c" "C" 30) (by decide)
  exact ⟨by decide, h.2.1, h.2.2.1, h.2.2.2.1⟩

/-! ### C7 — summation over all simple paths, no deduplication -/

/-- C7: the percentage of every emitted indirect relationship is exactly the
sum of the per-path percentages over all simple directed paths of at most 3
edges between the pair; every enumerated path contributes fully, with no
deduplication for paths sharing sub-edges. -/
theorem claim7_sum_over_paths (s : ExtractorState) (r : Relationship)
    (hr : r ∈ emittedRels s) :
    r.percentage =
      ((simplePaths (ownershipEdges s.graph) r.source_id r.target_id 3).map
        (pathPct (ownershipEdges s.graph) 100)).sum := by
  obtain ⟨x, hx, pct, hpp, rfl⟩ := emitList_mem _ r _ hr
  obtain ⟨_, hpct, _⟩ := processPair_ok_some hpp
  simpa [mkIndirectRel, indirectPct] using hpct

theorem claim7_witness :
    mkIndirectRel "a" "c" "C" 50 ∈ emittedRels exS7 ∧
    (mkIndirectRel "a" "c" "C" 50).percentage =
      ((simplePaths (ownershipEdges exS7.graph) "a" "c" 3).map
        (pathPct (ownershipEdges exS7.graph) 100)).sum ∧
    (mkIndirectRel "a" "c" "C" 50).percentage = 50 :=
  ⟨by decide, claim7_sum_over_paths exS7 (mkIndirectRel "a" "c" "C" 50) (by decide), by decide⟩

/-! ### C9 — the relationships list after a full batch -/

/-- C9: after the batch, the relationships list is exactly the direct
relationships, in their original insertion order, followed by the emitted
`indirect_owns` relationships; its length is the sum of the two counts. -/
theorem claim9_append_order (s : ExtractorState) :
    (calculate_indirect_ownership s).relationships = s.relationships ++ emittedRels s ∧
    (calculate_indirect_ownership s).relationships.length =
      s.relationships.length + (emittedRels s).length ∧
    (emittedRels s).all (fun r => r.rtype == "indirect_owns") = true := by
  refine ⟨ciGo_relationships _ _ _, ?_, ?_⟩
  · rw [calculate_indirect_ownership, ciGo_relationships, List.length_append]
    rfl
  · rw [List.all_eq_true]
    intro r hr
    obtain ⟨x, hx, pct, hpp, rfl⟩ := emitList_mem _ r _ hr
    simp [mkIndirectRel]

/-! ### C6 — the 3-hop cutoff -/

/-- C6: only simple directed paths with at most 3 edges contribute; when every
simple directed path from `A` to `E` in the ownership-only graph has 4 or more
edges (i.e. 5 or more nodes), no `indirect_owns` relationship is emitted for
the pair `(A, E)`. -/
theorem claim6_hop_limit (s : ExtractorState) (A E : String)
    (h : ∀ p : List String, isEdgeChain (ownershipEdges s.graph) p = true → p.Nodup →
      p.head? = some A → p.getLast? = some E → 5 ≤ p.length) :
    (emittedRels s).filter (fun r => r.source_id == A && r.target_id == E) = [] := by
  rw [List.filter_eq_nil]
  intro r hr hpred
  obtain ⟨x, hx, pct, hpp, rfl⟩ := emitList_mem _ r _ hr
  simp only [mkIndirectRel, Bool.and_eq_true, beq_iff_eq] at hpred
  obtain ⟨hA, hE⟩ := hpred
  obtain ⟨hno, hpct, hgt⟩ := processPair_ok_some hpp
  have hempty : simplePaths (ownershipEdges s.graph) A E 3 = [] := by
    rw [simplePaths]
    by_cases hAE : A = E
    · rw [if_pos hAE]
    · rw [if_neg hAE]
      rw [List.eq_nil_iff_forall_not_mem]
      intro p hp
      obtain ⟨q, hqne, hpq, hchain, hlast, hlen, hnotin, hnd⟩ :=
        spAux_sound (ownershipEdges s.graph) E 3 [A] A p hp
      have hhead : p.head? = some A := by
        rw [hpq]
        rfl
      have hlast2 : p.getLast? = some E := by
        rw [hpq]
        exact hlast
      have hnodup : p.Nodup := by
        rw [hpq]
        refine List.nodup_cons.mpr ⟨?_, hnd⟩
        intro hAq
        exact hnotin A hAq (by simp)
      have hchain2 : isEdgeChain (ownershipEdges s.graph) p = true := by
        rw [hpq]
        exact hchain
      have h5 := h p hchain2 hnodup hhead hlast2
      rw [hpq, List.length_append, List.length_singleton] at h5
      omega
  rw [hA, hE] at hpct
  rw [indirectPct, hempty] at hpct
  simp only [List.map_nil, List.sum_nil] at hpct
  rw [hpct] at hgt
  norm_num at hgt

theorem claim6_witness :
    (emittedRels exS6).filter (fun r => r.source_id == "a" && r.target_id == "e") = [] := by
  refine claim6_hop_limit exS6 "a" "e" ?_
  intro p hchain hnd hhead hlast
  by_contra hlt
  push_neg at hlt
  have hmem : p ∈ chainsFrom (ownershipEdges exS6.graph) "a" 3 :=
    chainsFrom_complete _ 3 p "a" hchain hhead (by omega)
  have hall : ∀ q ∈ chainsFrom (ownershipEdges exS6.graph) "a" 3,
      q.getLast? ≠ some "e" := by decide
  exact hall p hmem hlast

/-! ### C8 — registry/graph invariant -/

theorem addNode_nodes_mono {g : NxDiGraph} {n : String} (m : String) (h : n ∈ g.nodes) :
    n ∈ (addNode g m).nodes := by
  rw [addNode]
  split
  · exact h
  · exact List.mem_append_left _ h

theorem addNode_mem_self (g : NxDiGraph) (n : String) : n ∈ (addNode g n).nodes := by
  rw [addNode]
  split
  · next h => exact h
  · exact List.mem_append_right _ (List.mem_singleton_self n)

theorem addEdge_nodes (g : NxDiGraph) (u v : String) (a : EdgeAttrs) :
    (addEdge g u v a).nodes = (addNode (addNode g u) v).nodes := rfl

theorem addEdge_nodes_mono {g : NxDiGraph} {n : String} (u v : String) (a : EdgeAttrs)
    (h : n ∈ g.nodes) : n ∈ (addEdge g u v a).nodes := by
  rw [addEdge_nodes]
  exact addNode_nodes_mono v (addNode_nodes_mono u h)

theorem addEdge_mem_left (g : NxDiGraph) (u v : String) (a : EdgeAttrs) :
    u ∈ (addEdge g u v a).nodes := by
  rw [addEdge_nodes]
  exact addNode_nodes_mono v (addNode_mem_self g u)

theorem addEdge_mem_right (g : NxDiGraph) (u v : String) (a : EdgeAttrs) :
    v ∈ (addEdge g u v a).nodes := by
  rw [addEdge_nodes]
  exact addNode_mem_self _ v

theorem dictKeys_upsert_mono {l : List (String × EntityInfo)} {k : String}
    (k2 : String) (v : EntityInfo) (h : k ∈ dictKeys l) :
    k ∈ dictKeys (dictUpsert l k2 v) := by
  rw [dictUpsert]
  split
  · rw [dictKeys, List.mem_map] at h ⊢
    obtain ⟨p, hp, rfl⟩ := h
    refine ⟨if p.1 = k2 then (k2, v) else p, List.mem_map_of_mem _ hp, ?_⟩
    by_cases hk : p.1 = k2
    · rw [if_pos hk]
      exact hk.symm
    · rw [if_neg hk]
  · rw [dictKeys, List.map_append, List.mem_append]
    exact Or.inl h

theorem dictKeys_upsert_self (l : List (String × EntityInfo)) (k : String) (v : EntityInfo) :
    k ∈ dictKeys (dictUpsert l k v) := by
  rw [dictUpsert]
  split
  · next hany =>
    rw [List.any_eq_true] at hany
    obtain ⟨p, hp, hpk⟩ := hany
    simp only [decide_eq_true_eq] at hpk
    rw [dictKeys, List.mem_map]
    refine ⟨(k, v), ?_, rfl⟩
    rw [List.mem_map]
    exact ⟨p, hp, by rw [if_pos hpk]⟩
  · rw [dictKeys, List.map_append, List.mem_append]
    right
    simp

theorem dictKeys_upsert_sub {l : List (String × EntityInfo)} {k k2 : String} {v : EntityInfo}
    (h : k ∈ dictKeys (dictUpsert l k2 v)) : k ∈ dictKeys l ∨ k = k2 := by
  rw [dictUpsert] at h
  split at h
  · rw [dictKeys, List.mem_map] at h
    obtain ⟨p, hp, rfl⟩ := h
    rw [List.mem_map] at hp
    obtain ⟨q, hq, rfl⟩ := hp
    by_cases hk : q.1 = k2
    · rw [if_pos hk]
      exact Or.inr rfl
    · rw [if_neg hk]
      exact Or.inl (List.mem_map_of_mem _ hq)
  · rw [dictKeys, List.map_append, List.mem_append] at h
    rcases h with h | h
    · exact Or.inl h
    · right
      simpa using h

theorem relOK_mono (s1 s2 : ExtractorState) (r : Relationship)
    (hown : ∀ k, k ∈ dictKeys s1.owners → k ∈ dictKeys s2.owners)
    (hent : ∀ k, k ∈ dictKeys s1.entities → k ∈ dictKeys s2.entities)
    (hnod : ∀ n, n ∈ s1.graph.nodes → n ∈ s2.graph.nodes)
    (h : relOK s1 r) : relOK s2 r := by
  obtain ⟨h1, h2, h3, h4⟩ := h
  refine ⟨?_, ?_, hnod _ h3, hnod _ h4⟩
  · rcases h1 with h | h
    · exact Or.inl (hown _ h)
    · exact Or.inr (hent _ h)
  · rcases h2 with h | h
    · exact Or.inl (hown _ h)
    · exact Or.inr (hent _ h)

theorem processMediaCompany_inv (s : ExtractorState) (oid nm : String) (pct : ℚ)
    (img : String) (hinv : StateInv s) (ho : oid ∈ dictKeys s.owners) :
    StateInv (processMediaCompany s oid nm pct img) := by
  obtain ⟨hi1, hi2, hi3⟩ := hinv
  refine ⟨?_, ?_, ?_⟩
  · intro k hk
    exact addEdge_nodes_mono _ _ _ (addNode_nodes_mono _ (hi1 k hk))
  · intro k hk
    rcases dictKeys_upsert_sub hk with hk2 | hk2
    · exact addEdge_nodes_mono _ _ _ (addNode_nodes_mono _ (hi2 k hk2))
    · subst hk2
      exact addEdge_mem_right _ _ _ _
  · intro r hr
    have hrels : (processMediaCompany s oid nm pct img).relationships =
        s.relationships ++
          [{ source_id := oid, target_id := sanitize_id nm, rtype := "owns",
             percentage := pct, description := ownsDesc pct nm }] := rfl
    rw [hrels] at hr
    rcases List.mem_append.mp hr with hr | hr
    · refine relOK_mono s _ r (fun k h => h) (fun k h => dictKeys_upsert_mono _ _ h)
        (fun n h => addEdge_nodes_mono _ _ _ (addNode_nodes_mono _ h)) (hi3 r hr)
    · rw [List.mem_singleton] at hr
      subst hr
      exact ⟨Or.inl ho, Or.inr (dictKeys_upsert_self _ _ _),
        addEdge_mem_left _ _ _ _, addEdge_mem_right _ _ _ _⟩

theorem processMediaOutlet_inv (s : ExtractorState) (oid nm mt : String) (pct : ℚ)
    (img : String) (hinv : StateInv s) (ho : oid ∈ dictKeys s.owners) :
    StateInv (processMediaOutlet s oid nm mt pct img) := by
  obtain ⟨hi1, hi2, hi3⟩ := hinv
  refine ⟨?_, ?_, ?_⟩
  · intro k hk
    exact addEdge_nodes_mono _ _ _ (addNode_nodes_mono _ (hi1 k hk))
  · intro k hk
    rcases dictKeys_upsert_sub hk with hk2 | hk2
    · exact addEdge_nodes_mono _ _ _ (addNode_nodes_mono _ (hi2 k hk2))
    · subst hk2
      exact addEdge_mem_right _ _ _ _
  · intro r hr
    have hrels : (processMediaOutlet s oid nm mt pct img).relationships =
        s.relationships ++
          [{ source_id := oid, target_id := sanitize_id nm, rtype := "owns",
             percentage := pct, description := ownsDesc pct nm }] := rfl
    rw [hrels] at hr
    rcases List.mem_append.mp hr with hr | hr
    · refine relOK_mono s _ r (fun k h => h) (fun k h => dictKeys_upsert_mono _ _ h)
        (fun n h => addEdge_nodes_mono _ _ _ (addNode_nodes_mono _ h)) (hi3 r hr)
    · rw [List.mem_singleton] at hr
      subst hr
      exact ⟨Or.inl ho, Or.inr (dictKeys_upsert_self _ _ _),
        addEdge_mem_left _ _ _ _, addEdge_mem_right _ _ _ _⟩

theorem append_rel_edge_inv (s1 : ExtractorState) (oid fid rty : String) (pct : ℚ)
    (dsc : String) (a : EdgeAttrs) (hinv : StateInv s1)
    (ho : registeredIn s1 oid) (hf : registeredIn s1 fid) :
    StateInv { s1 with
      relationships := s1.relationships ++
        [{ source_id := oid, target_id := fid, rtype := rty, percentage := pct,
           description := dsc }]
      graph := addEdge s1.graph oid fid a } := by
  obtain ⟨hi1, hi2, hi3⟩ := hinv
  refine ⟨?_, ?_, ?_⟩
  · intro k hk
    exact addEdge_nodes_mono _ _ _ (hi1 k hk)
  · intro k hk
    exact addEdge_nodes_mono _ _ _ (hi2 k hk)
  · intro r hr
    rcases List.mem_append.mp hr with hr | hr
    · exact relOK_mono s1 _ r (fun k h => h) (fun k h => h)
        (fun n h => addEdge_nodes_mono _ _ _ h) (hi3 r hr)
    · rw [List.mem_singleton] at hr
      subst hr
      exact ⟨ho, hf, addEdge_mem_left _ _ _ _, addEdge_mem_right _ _ _ _⟩

theorem processFamilyMember_inv (s : ExtractorState) (text oid onm : String)
    (hinv : StateInv s) (ho : oid ∈ dictKeys s.owners) :
    StateInv (processFamilyMember s text oid onm) := by
  rw [processFamilyMember]
  dsimp only
  split
  · exact hinv
  · split
    · exact hinv
    · split
      · next h3 =>
        simp only [Bool.or_eq_true, decide_eq_true_eq] at h3
        exact append_rel_edge_inv s _ _ _ _ _ _ hinv (Or.inl ho) h3
      · next h3 =>
        have hinv2 : StateInv { s with
            owners := dictUpsert s.owners (sanitize_id (parseFamilyText text).1)
              { name := (parseFamilyText text).1,
                description := (parseFamilyText text).2, etype := "owner" }
            graph := addNode s.graph (sanitize_id (parseFamilyText text).1) } := by
          obtain ⟨hi1, hi2, hi3⟩ := hinv
          refine ⟨?_, ?_, ?_⟩
          · intro k hk
            rcases dictKeys_upsert_sub hk with hk2 | hk2
            · exact addNode_nodes_mono _ (hi1 k hk2)
            · subst hk2
              exact addNode_mem_self _ _
          · intro k hk
            exact addNode_nodes_mono _ (hi2 k hk)
          · intro r hr
            exact relOK_mono s _ r (fun k h => dictKeys_upsert_mono _ _ h)
              (fun k h => h) (fun n h => addNode_nodes_mono _ h) (hi3 r hr)
        exact append_rel_edge_inv _ _ _ _ _ _ _ hinv2
          (Or.inl (dictKeys_upsert_mono _ _ ho))
          (Or.inl (dictKeys_upsert_self _ _ _))

theorem ciGo_inv (og : List OwnEdge) :
    ∀ (l : List (String × String × String)) (s : ExtractorState),
      (∀ x ∈ l, x.1 ∈ dictKeys s.owners ∧ x.2.1 ∈ dictKeys s.entities) →
      StateInv s → StateInv (ciGo og l s)
  | [], _, _, hinv => hinv
  | (o, e, enm) :: rest, s, hl, hinv => by
    rw [ciGo]
    cases hpp : processPair og o e with
    | error err =>
      simp only
      exact hinv
    | ok ro =>
      cases ro with
      | none =>
        simp only
        exact ciGo_inv og rest s (fun x hx => hl x (List.mem_cons_of_mem _ hx)) hinv
      | some pct =>
        simp only
        refine ciGo_inv og rest _ ?_ ?_
        · intro x hx
          exact hl x (List.mem_cons_of_mem _ hx)
        · have h0 := hl (o, e, enm) (List.mem_cons_self _ _)
          obtain ⟨hi1, hi2, hi3⟩ := hinv
          refine ⟨?_, ?_, ?_⟩
          · intro k hk
            exact addEdge_nodes_mono _ _ _ (hi1 k hk)
          · intro k hk
            exact addEdge_nodes_mono _ _ _ (hi2 k hk)
          · intro r hr
            rcases List.mem_append.mp hr with hr | hr
            · exact relOK_mono s _ r (fun k h => h) (fun k h => h)
                (fun n h => addEdge_nodes_mono _ _ _ h) (hi3 r hr)
            · rw [List.mem_singleton] at hr
              subst hr
              exact ⟨Or.inl h0.1, Or.inr h0.2, addEdge_mem_left _ _ _ _,
                addEdge_mem_right _ _ _ _⟩

/-- C8: every operation that appends a relationship keeps the invariant that
each relationship's `source_id` and `target_id` are keys of the registry (the
owners or entities collection) and nodes of the graph — assuming, as at every
call site in `process_html_file`, that the owner id is already registered. -/
theorem claim8_endpoints_registered (s : ExtractorState) (hinv : StateInv s) :
    (∀ oid nm pct img, oid ∈ dictKeys s.owners →
      StateInv (processMediaCompany s oid nm pct img)) ∧
    (∀ oid nm mt pct img, oid ∈ dictKeys s.owners →
      StateInv (processMediaOutlet s oid nm mt pct img)) ∧
    (∀ text oid onm, oid ∈ dictKeys s.owners →
      StateInv (processFamilyMember s text oid onm)) ∧
    StateInv (calculate_indirect_ownership s) := by
  refine ⟨?_, ?_, ?_, ?_⟩
  · intro oid nm pct img ho
    exact processMediaCompany_inv s oid nm pct img hinv ho
  · intro oid nm mt pct img ho
    exact processMediaOutlet_inv s oid nm mt pct img hinv ho
  · intro text oid onm ho
    exact processFamilyMember_inv s text oid onm hinv ho
  · rw [calculate_indirect_ownership]
    exact ciGo_inv _ _ _ (fun x hx => pairList_mem hx) hinv

theorem claim8_witness :
    StateInv exS3 ∧
    StateInv (processMediaCompany exS3 "a" "New Media Co" 40 "") ∧
    StateInv (processFamilyMember exS3 "John Doe - his brother" "a" "A") ∧
    StateInv (calculate_indirect_ownership exS3) := by
  have h := claim8_endpoints_registered exS3 (by decide)
  exact ⟨by decide, h.1 "a" "New Media Co" 40 "" (by decide),
    h.2.2.1 "John Doe - his brother" "a" "A" (by decide), h.2.2.2⟩

/-! ### C1 — the 60 percent / 50 percent scenario -/

/-- C1 (counterexample): `exS1` satisfies every premise of the claim — the
ownership-only graph has `a -60%-> b -50%-> c`, no direct `a -> c` edge, `a` is
an owner and `c` an entity — yet `calculate_indirect_ownership` emits nothing:
the unrelated owner `x` is not a node of the ownership-only graph, the pair
`(x, c)` raises `NodeNotFound` first, and the batch aborts (see C2). -/
theorem claim1_cex :
    getPct (ownershipEdges exS1.graph) "a" "b" = some 60 ∧
    getPct (ownershipEdges exS1.graph) "b" "c" = some 50 ∧
    hasOwnEdge (ownershipEdges exS1.graph) "a" "c" = false ∧
    "a" ∈ dictKeys exS1.owners ∧ "c" ∈ dictKeys exS1.entities ∧
    emittedRels exS1 = [] ∧
    (calculate_indirect_ownership exS1).relationships = [] :=
  ⟨by decide, by decide, by decide, by decide, by decide, by decide, by decide⟩

theorem nodesOf_length : ∀ og : List OwnEdge, (nodesOf og).length = 2 * og.length
  | [] => rfl
  | e :: t => by
    have ih := nodesOf_length t
    simp only [nodesOf, List.flatMap_cons] at ih ⊢
    simp only [List.length_append, List.length_cons, List.length_nil]
    omega

theorem inner_filter (A C : String) (o : String × EntityInfo) :
    ∀ el : List (String × EntityInfo),
      ((el.map (fun ep => (o.1, ep.1, ep.2.name))).filter
          (fun x => x.1 == A && x.2.1 == C)) =
        if o.1 = A then
          (el.filter (fun p => p.1 = C)).map (fun ep => (o.1, ep.1, ep.2.name))
        else []
  | [] => by
    by_cases ho : o.1 = A <;> simp [ho]
  | ep :: rest => by
    have ih := inner_filter A C o rest
    by_cases ho : o.1 = A
    · rw [if_pos ho] at ih ⊢
      by_cases hc : ep.1 = C
      · rw [List.map_cons, List.filter_cons, if_pos (by simp [ho, hc]), ih,
          List.filter_cons, if_pos (by simp [hc]), List.map_cons]
      · rw [List.map_cons, List.filter_cons, if_neg (by simp [hc]), ih,
          List.filter_cons, if_neg (by simp [hc])]
    · rw [if_neg ho] at ih ⊢
      simp only [List.map_cons, List.filter_cons]
      rw [if_neg (by simp [ho])]
      exact ih

theorem filter_pairList_zero (ent : List (String × EntityInfo)) (A C : String) :
    ∀ ol : List (String × EntityInfo), (ol.map Prod.fst).count A = 0 →
      ((ol.flatMap (fun op => ent.map (fun ep => (op.1, ep.1, ep.2.name)))).filter
        (fun x => x.1 == A && x.2.1 == C)) = []
  | [], _ => rfl
  | o :: rest, hcnt => by
    rw [List.flatMap_cons, List.filter_append]
    have hcnt2 : (rest.map Prod.fst).count A = 0 ∧ o.1 ≠ A := by
      rw [List.map_cons, List.count_cons] at hcnt
      simp only [beq_iff_eq] at hcnt
      by_cases hx : o.1 = A
      · rw [if_pos hx] at hcnt
        omega
      · rw [if_neg hx] at hcnt
        exact ⟨by omega, hx⟩
    rw [inner_filter, if_neg hcnt2.2, filter_pairList_zero ent A C rest hcnt2.1]
    rfl

theorem filter_pairList (ent : List (String × EntityInfo)) (A C nm : String)
    (eC : EntityInfo) (hC1 : ent.filter (fun p => p.1 = C) = [(C, eC)])
    (hnm : eC.name = nm) :
    ∀ ol : List (String × EntityInfo), (ol.map Prod.fst).count A = 1 →
      ((ol.flatMap (fun op => ent.map (fun ep => (op.1, ep.1, ep.2.name)))).filter
        (fun x => x.1 == A && x.2.1 == C)) = [(A, C, nm)]
  | [], hcnt => by simp at hcnt
  | o :: rest, hcnt => by
    rw [List.flatMap_cons, List.filter_append, inner_filter]
    by_cases ho : o.1 = A
    · have hrest : (rest.map Prod.fst).count A = 0 := by
        rw [List.map_cons, List.count_cons] at hcnt
        simp [ho] at hcnt
        omega
      rw [if_pos ho, hC1, filter_pairList_zero ent A C rest hrest]
      simp [ho, hnm]
    · have hrest : (rest.map Prod.fst).count A = 1 := by
        rw [List.map_cons, List.count_cons] at hcnt
        simp [ho] at hcnt
        omega
      rw [if_neg ho, filter_pairList ent A C nm eC hC1 hnm rest hrest]
      rfl

theorem emitList_filter_ok (og : List OwnEdge) (A C : String) :
    ∀ l : List (String × String × String),
      (∀ y ∈ l, (processPair og y.1 y.2.1).isOk = true) →
      ((emitList og l).filter (fun r => r.source_id == A && r.target_id == C)) =
        (l.filter (fun x => x.1 == A && x.2.1 == C)).filterMap
          (fun x => match processPair og x.1 x.2.1 with
            | .ok (some pct) => some (mkIndirectRel x.1 x.2.1 x.2.2 pct)
            | _ => none)
  | [] => fun _ => rfl
  | (o, e, enm) :: rest => by
    intro hok
    have ih := emitList_filter_ok og A C rest
      (fun y hy => hok y (List.mem_cons_of_mem _ hy))
    rw [emitList, List.filter_cons]
    cases hpp : processPair og o e with
    | error err =>
      have := hok (o, e, enm) (List.mem_cons_self _ _)
      rw [hpp] at this
      simp [Except.isOk, Except.toBool] at this
    | ok ro =>
      cases ro with
      | none =>
        simp only
        by_cases hAC : (o == A && e == C) = true
        · rw [if_pos hAC, List.filterMap_cons]
          rw [hpp]
          simp only
          exact ih
        · rw [if_neg hAC]
          exact ih
      | some pct =>
        simp only
        by_cases hAC : (o == A && e == C) = true
        · rw [if_pos hAC, List.filter_cons, if_pos (by simpa [mkIndirectRel] using hAC),
            List.filterMap_cons, hpp]
          simp only
          rw [ih]
        · rw [if_neg hAC, List.filter_cons, if_neg (by simpa [mkIndirectRel] using hAC)]
          exact ih

/-- C1 (amended): in a state whose ownership-only graph has `A -60%-> B` and
`B -50%-> C`, no direct `A -> C` edge, `A` an owner key (once) and `C` an
entity key (once, with name `nm`), and where additionally (i) no pair of the
batch raises an error (cf. C2: one failing pair aborts the whole batch) and
(ii) `A -> B -> C` is the only simple directed path of at most 3 edges from
`A` to `C`, `calculate_indirect_ownership` emits exactly one `indirect_owns`
relationship from `A` to `C`, with percentage 30.0 and description
`"Indirectly owns 30.00% of "` followed by the entity name. -/
theorem claim1_scenario (s : ExtractorState) (A B C nm : String) (eC : EntityInfo)
    (hok : ∀ x ∈ pairList s, (processPair (ownershipEdges s.graph) x.1 x.2.1).isOk = true)
    (hAB : getPct (ownershipEdges s.graph) A B = some 60)
    (hBC : getPct (ownershipEdges s.graph) B C = some 50)
    (hAC : hasOwnEdge (ownershipEdges s.graph) A C = false)
    (hpaths : simplePaths (ownershipEdges s.graph) A C 3 = [[A, B, C]])
    (hA1 : (s.owners.map Prod.fst).count A = 1)
    (hC1 : s.entities.filter (fun p => p.1 = C) = [(C, eC)])
    (hnm : eC.name = nm) :
    (calculate_indirect_ownership s).relationships = s.relationships ++ emittedRels s ∧
    (emittedRels s).filter (fun r => r.source_id == A && r.target_id == C) =
      [{ source_id := A, target_id := C, rtype := "indirect_owns", percentage := 30,
         description := "Indirectly owns 30.00% of " ++ nm }] := by
  have hANeC : A ≠ C := by
    intro hx
    rw [simplePaths, if_pos hx] at hpaths
    simp at hpaths
  have hmAB : ((A, B, (60 : ℚ)) : OwnEdge) ∈ ownershipEdges s.graph := getPct_mem hAB
  have hmBC : ((B, C, (50 : ℚ)) : OwnEdge) ∈ ownershipEdges s.graph := getPct_mem hBC
  have hAmem : A ∈ nodesOf (ownershipEdges s.graph) := mem_nodesOf_left hmAB
  have hCmem : C ∈ nodesOf (ownershipEdges s.graph) := mem_nodesOf_right hmBC
  have hlen2 : 2 ≤ (ownershipEdges s.graph).length := by
    have hne : ((A, B, (60 : ℚ)) : OwnEdge) ≠ (B, C, 50) := by
      intro hx
      have h60 : (60 : ℚ) = 50 := congrArg (fun e : OwnEdge => e.2.2) hx
      norm_num at h60
    have hsub : ({(A, B, (60 : ℚ)), (B, C, 50)} : Finset OwnEdge) ⊆
        (ownershipEdges s.graph).toFinset := by
      intro z hz
      rcases Finset.mem_insert.mp hz with rfl | hz
      · exact List.mem_toFinset.mpr hmAB
      · rw [Finset.mem_singleton] at hz
        subst hz
        exact List.mem_toFinset.mpr hmBC
    calc (2 : ℕ) = ({(A, B, (60 : ℚ)), (B, C, 50)} : Finset OwnEdge).card :=
          (Finset.card_pair hne).symm
      _ ≤ (ownershipEdges s.graph).toFinset.card := Finset.card_le_card hsub
      _ ≤ (ownershipEdges s.graph).length := (ownershipEdges s.graph).toFinset_card_le
  have hN : 3 ≤ (nodesOf (ownershipEdges s.graph)).length := by
    rw [nodesOf_length]
    omega
  have hmem3 : [A, B, C] ∈ spAux (ownershipEdges s.graph) C 3 [A] A := by
    rw [simplePaths, if_neg hANeC] at hpaths
    rw [hpaths]
    exact List.mem_singleton_self _
  have hmemN : [A, B, C] ∈
      spAux (ownershipEdges s.graph) C (nodesOf (ownershipEdges s.graph)).length [A] A :=
    spAux_mono _ C 3 _ hN [A] A _ hmem3
  have hHP : hasPathE (ownershipEdges s.graph) A C = .ok true := by
    rw [hasPathE, if_pos hAmem, if_pos hCmem]
    have hemp : (spAux (ownershipEdges s.graph) C
        (nodesOf (ownershipEdges s.graph)).length [A] A).isEmpty = false := by
      rw [List.isEmpty_eq_false]
      exact List.ne_nil_of_mem hmemN
    rw [hemp]
    simp
  have hpct30 : indirectPct (ownershipEdges s.graph) A C = 30 := by
    rw [indirectPct, hpaths]
    simp only [List.map_cons, List.map_nil, List.sum_cons, List.sum_nil, pathPct, hAB, hBC,
      Option.getD_some]
    norm_num
  have hpp : processPair (ownershipEdges s.graph) A C = .ok (some 30) := by
    rw [processPair, if_neg (by simp [hAC]), hHP]
    simp only
    rw [hpct30, if_pos (by norm_num)]
  have hdesc : indirectDesc 30 nm = "Indirectly owns 30.00% of " ++ nm := by
    rw [indirectDesc]
    rw [show fmt2 30 = "30.00" from by decide]
    rw [show ("Indirectly owns " ++ "30.00" : String) = "Indirectly owns 30.00" from by decide]
    rw [show ("Indirectly owns 30.00" ++ "% of " : String) = "Indirectly owns 30.00% of "
      from by decide]
  refine ⟨ciGo_relationships _ _ _, ?_⟩
  rw [emittedRels, emitList_filter_ok (ownershipEdges s.graph) A C (pairList s) hok]
  rw [pairList, filter_pairList s.entities A C nm eC hC1 hnm s.owners hA1]
  simp only [List.filterMap_cons, List.filterMap_nil, hpp]
  rw [show mkIndirectRel A C nm 30 =
    { source_id := A, target_id := C, rtype := "indirect_owns", percentage := 30,
      description := "Indirectly owns 30.00% of " ++ nm } from by rw [mkIndirectRel, hdesc]]

theorem claim1_witness :
    (calculate_indirect_ownership exS3).relationships =
      exS3.relationships ++ emittedRels exS3 ∧
    (emittedRels exS3).filter (fun r => r.source_id == "a" && r.target_id == "c") =
      [{ source_id := "a", target_id := "c", rtype := "indirect_owns", percentage := 30,
         description := "Indirectly owns 30.00% of " ++ "C" }] :=
  claim1_scenario exS3 "a" "b" "c" "C" { name := "C", etype := "company" }
    (by decide) (by decide) (by decide) (by decide) (by decide) (by decide) (by decide) rfl
